import Mathlib

/-!
Shallow embedding of `src/mandelbrot.cc` (qmandelbrot): the SSE2 batched
escape-time evaluator `member4`, the palette-index pipeline of the renderer
`mandelbrot`, the color palette `pal`, and the per-frame zoom transition.
Machine floats are modelled as exact rationals (ℚ); the 128-bit integer
lanes are modelled as `Int` per lane (the masked add of `0xFFFFFFFF` is a
decrement, the masked-and test `(not_escape & iterations) == 0` is modelled
on the same values).
-/

set_option maxRecDepth 100000

namespace Mandelbrot

/-- Horizontal resolution (`X_RES` in the source). -/
def X_RES : Nat := 700

/-- Vertical resolution (`Y_RES` in the source). -/
def Y_RES : Nat := 700

/-- Max iterations to check whether a point escapes (`MAX_ITS`). -/
def MAX_ITS : Nat := 500

/-- Max depth of zoom (`MAX_DEPTH`). -/
def MAX_DEPTH : Nat := 150

/-- Zoom between each frame (`ZOOM_FACTOR = 1.07`), as an exact rational. -/
def ZOOM_FACTOR : ℚ := 107 / 100

/-- The color palette byte array `pal` from the source, verbatim: a flat
list of bytes, three per color entry. -/
def pal : List Nat :=
  [0, 0, 0,
   255, 180, 4,
   240, 156, 4,
   220, 124, 4,
   156, 71, 4,
   72, 20, 4,
   251, 180, 4,
   180, 74, 4,
   180, 70, 4,
   164, 91, 4,
   100, 28, 4,
   191, 82, 4,
   47, 5, 4,
   138, 39, 4,
   81, 27, 4,
   192, 89, 4,
   61, 27, 4,
   216, 148, 4,
   71, 14, 4,
   142, 48, 4,
   196, 102, 4,
   58, 9, 4,
   132, 45, 4,
   95, 15, 4,
   92, 21, 4,
   166, 59, 4,
   244, 178, 4,
   194, 121, 4,
   120, 41, 4,
   53, 14, 4,
   80, 15, 4,
   23, 3, 4,
   249, 204, 4,
   97, 25, 4,
   124, 30, 4,
   151, 57, 4,
   104, 36, 4,
   239, 171, 4,
   131, 57, 4,
   111, 23, 4,
   4, 2, 4,
   255, 180, 4,
   240, 156, 4,
   220, 124, 4,
   156, 71, 4,
   72, 20, 4,
   251, 180, 4,
   180, 74, 4,
   180, 70, 4,
   164, 91, 4,
   100, 28, 4,
   191, 82, 4,
   47, 5, 4,
   138, 39, 4,
   81, 27, 4,
   192, 89, 4,
   61, 27, 4,
   216, 148, 4,
   71, 14, 4,
   142, 48, 4,
   196, 102, 4,
   58, 9, 4,
   132, 45, 4,
   95, 15, 4,
   92, 21, 4]

/-- Number of entries in the authored palette ramp (`PAL_SIZE` in the
source). -/
def PAL_SIZE : Nat := 40

/-- The per-lane palette-index computation of the renderer, lines 273-292
of the source: `max_mask4 = cmpeq(iterations, MAX_ITS) xor all-ones`, then
`((iterations and 0x3F) + 1) and max_mask4`.  The 32-bit lane is modelled
over `Nat` with the same bit operations. -/
def colorIndex (k : Nat) : Nat :=
  let max_mask := if k = MAX_ITS then 4294967295 else 0
  let max_mask := max_mask ^^^ 4294967295
  ((k &&& 63) + 1) &&& max_mask

/-- The RGB triple the renderer reads for palette entry `i`:
`(pal[i*3], pal[i*3+1], pal[i*3+2])` (lines 302-305 of the source). -/
def palTriple (i : Nat) : Nat × Nat × Nat :=
  (pal.getD (i * 3) 0, pal.getD (i * 3 + 1) 0, pal.getD (i * 3 + 2) 0)

/-- Entry `j` of the 40-entry authored color ramp: the ramp occupies
palette entries `1..40`, so ramp entry `j` is palette entry `j + 1`. -/
def rampTriple (j : Nat) : Nat × Nat × Nat :=
  palTriple (j + 1)

/-- The RGB color the renderer writes for a pixel whose iteration count is
`k`: the palette triple at the computed color index. -/
def palColor (k : Nat) : Nat × Nat × Nat :=
  palTriple (colorIndex k)

theorem colorIndex_eq (k : Nat) :
    colorIndex k = if k = MAX_ITS then 0 else k % 64 + 1 := by
  unfold colorIndex
  by_cases h : k = MAX_ITS
  · simp [h]
  · simp only [h, if_false]
    have h63 : k &&& 63 = k % 64 := by
      have := Nat.and_pow_two_sub_one_eq_mod k 6
      norm_num at this
      exact this
    have hlt : k % 64 + 1 < 4294967296 := by
      have : k % 64 < 64 := Nat.mod_lt _ (by norm_num)
      omega
    have h32 : (k % 64 + 1) &&& 4294967295 = k % 64 + 1 := by
      have := Nat.and_pow_two_sub_one_eq_mod (k % 64 + 1) 32
      norm_num at this
      rw [this]
      exact Nat.mod_eq_of_lt hlt
    rw [Nat.zero_xor, h63, h32]

theorem colorIndex_le_64 (k : Nat) : colorIndex k ≤ 64 := by
  rw [colorIndex_eq]
  by_cases h : k = MAX_ITS
  · simp [h]
  · simp only [h, if_false]
    have : k % 64 < 64 := Nat.mod_lt _ (by norm_num)
    omega

theorem colorIndex_pos (k : Nat) (h : k ≠ MAX_ITS) : 1 ≤ colorIndex k := by
  rw [colorIndex_eq]
  simp [h]

theorem pal_length : pal.length = 65 * 3 := by decide

theorem palTriple_succ_eq_ramp :
    ∀ j < 64, palTriple (j + 1) = rampTriple (j % 40) := by decide

/-! ### The batched evaluator `member4`

The state of the SSE loop of `member4` (lines 149-208): four integer
iteration counters (`iterations4`, counting down from the cap), four orbit
points (`x4`, `y4`), and the four-lane not-escaped mask (`not_escape4`,
modelled as a `Bool` per lane).  The squared coordinates `x_sq4`/`y_sq4`
always hold the squares of the current `x4`/`y4` at the points where they
are read, so they are recomputed instead of stored.  The cap is kept as a
parameter `M` (the source instantiates it with `MAX_ITS`). -/

structure M4State where
  iters : Fin 4 → Int
  x : Fin 4 → ℚ
  y : Fin 4 → ℚ
  notEsc : Fin 4 → Bool

/-- Initial loop state of `member4`: counters at the cap, orbit at the
input point, and a lane is initially not-escaped when `cx²+cy² < 4`
(lines 152-165). -/
def initState (M : Nat) (cx cy : Fin 4 → ℚ) : M4State where
  iters := fun _ => (M : Int)
  x := cx
  y := cy
  notEsc := fun i => decide (cx i * cx i + cy i * cy i < 4)

/-- One pass of the `while` body of `member4` (lines 186-204): decrement
the counters of not-escaped lanes (add of the all-ones mask), update every
lane's orbit `y ← x*y + x*y + cy`, `x ← x*x − y*y + cx` (the updates are
not masked in the source), and AND the not-escaped mask with the new
comparison `x²+y² < 4`. -/
def step (cx cy : Fin 4 → ℚ) (s : M4State) : M4State where
  iters := fun i => s.iters i + (if s.notEsc i then -1 else 0)
  x := fun i => s.x i * s.x i - s.y i * s.y i + cx i
  y := fun i => s.x i * s.y i + s.x i * s.y i + cy i
  notEsc := fun i => s.notEsc i &&
    decide ((s.x i * s.x i - s.y i * s.y i + cx i) *
        (s.x i * s.x i - s.y i * s.y i + cx i) +
      (s.x i * s.y i + s.x i * s.y i + cy i) *
        (s.x i * s.y i + s.x i * s.y i + cy i) < 4)

/-- Lane `i` contributes `0xFFFFFFFF` to the exit test when
`(not_escape & iterations) == 0` in that lane (lines 173-177, 202-204). -/
def laneDone (s : M4State) (i : Fin 4) : Bool :=
  decide ((if s.notEsc i then s.iters i else 0) = 0)

/-- The loop of `member4` exits when `mask == 0xFFFF`, i.e. when every
lane is done. -/
def allDone (s : M4State) : Bool :=
  laneDone s 0 && laneDone s 1 && laneDone s 2 && laneDone s 3

/-- The `while (mask != 0xFFFF)` loop of `member4`, with explicit fuel:
each unfolding tests the exit condition and, if the loop continues, runs
one pass of the body. -/
def run (cx cy : Fin 4 → ℚ) : Nat → M4State → M4State
  | 0, s => s
  | n + 1, s => if allDone s then s else run cx cy n (step cx cy s)

/-- The batched evaluator with cap `M`: run the loop (fuel `M` passes
suffices, see `run_fuel_irrelevant`), then return
`MAX_ITERATIONS − iterations` for each lane (line 207). -/
def member4P (M : Nat) (cx cy : Fin 4 → ℚ) (i : Fin 4) : Int :=
  (M : Int) - (run cx cy M (initState M cx cy)).iters i

/-- The evaluator `member4` of the source: cap `MAX_ITS`. -/
def member4 (cx cy : Fin 4 → ℚ) (i : Fin 4) : Int :=
  member4P MAX_ITS cx cy i

/-! ### The scalar escape-time recurrence (spec side)

Modelled from the spec (§4.1, §8): the scalar loop that iterates
`y ← 2xy + cy`, `x ← x² − y² + cx` from `z₀ = c`, stopping exactly at its
own escape (`x² + y² ≥ 4`), and returning the number of update steps
executed, capped at the fuel.  This is the reference model the batched
evaluator is compared against in the refinement claim. -/

def scalarLoop (cx cy : ℚ) : ℚ → ℚ → Nat → Nat
  | _, _, 0 => 0
  | x, y, f + 1 =>
    if x * x + y * y < 4 then
      scalarLoop cx cy (x * x - y * y + cx) (x * y + x * y + cy) f + 1
    else 0

/-- Modelled from the spec: the scalar escape-time count of a single point
`c`, with iteration cap `M`. -/
def scalarCount (M : Nat) (cx cy : ℚ) : Nat :=
  scalarLoop cx cy cx cy M

/-! ### Per-point orbit bookkeeping used by the invariant proofs -/

/-- The orbit of a single point: `orbit cx cy t` is `z_t` of the
recurrence `z ← z² + c` started at `z₀ = c`, as an `(x, y)` pair. -/
def orbit (cx cy : ℚ) : Nat → ℚ × ℚ
  | 0 => (cx, cy)
  | t + 1 =>
    let p := orbit cx cy t
    (p.1 * p.1 - p.2 * p.2 + cx, p.1 * p.2 + p.1 * p.2 + cy)

/-- Whether the orbit point `z_t` fails the distance test `x²+y² < 4`. -/
def escaped (cx cy : ℚ) (t : Nat) : Bool :=
  decide (4 ≤ (orbit cx cy t).1 * (orbit cx cy t).1 +
    (orbit cx cy t).2 * (orbit cx cy t).2)

/-- Whether some orbit point `z_k`, `k ≤ t`, has escaped. -/
def escapedBy (cx cy : ℚ) : Nat → Bool
  | 0 => escaped cx cy 0
  | t + 1 => escapedBy cx cy t || escaped cx cy (t + 1)

/-- Number of loop passes among the first `t` in which the lane of point
`c` is still not escaped (and therefore has its counter decremented). -/
def liveCount (cx cy : ℚ) : Nat → Nat
  | 0 => 0
  | t + 1 => liveCount cx cy t + (if escapedBy cx cy t then 0 else 1)

/-- The state after exactly `t` unconditional passes of the loop body. -/
def iterN (M : Nat) (cx cy : Fin 4 → ℚ) : Nat → M4State
  | 0 => initState M cx cy
  | t + 1 => step cx cy (iterN M cx cy t)

theorem decide_lt_eq_not_decide_le (a b : ℚ) :
    decide (a < b) = !decide (b ≤ a) := by
  by_cases h : a < b
  · simp [h, not_le.mpr h]
  · simp [h, not_lt.mp h]

theorem escapedBy_false_elim {cx cy : ℚ} {t : Nat}
    (h : escapedBy cx cy t = false) : escaped cx cy t = false := by
  cases t with
  | zero => exact h
  | succ t =>
    have := h
    unfold escapedBy at this
    exact (Bool.or_eq_false_iff.mp this).2

theorem escapedBy_false_pred {cx cy : ℚ} {t : Nat}
    (h : escapedBy cx cy (t + 1) = false) : escapedBy cx cy t = false := by
  unfold escapedBy at h
  exact (Bool.or_eq_false_iff.mp h).1

theorem escapedBy_mono {cx cy : ℚ} {t : Nat}
    (h : escapedBy cx cy t = true) (d : Nat) :
    escapedBy cx cy (t + d) = true := by
  induction d with
  | zero => exact h
  | succ d ih =>
    show escapedBy cx cy (t + d + 1) = true
    unfold escapedBy
    simp [ih]

theorem liveCount_le (cx cy : ℚ) (t : Nat) : liveCount cx cy t ≤ t := by
  induction t with
  | zero => exact Nat.le_refl 0
  | succ t ih =>
    unfold liveCount
    split <;> omega

theorem liveCount_freeze {cx cy : ℚ} {t : Nat}
    (h : escapedBy cx cy t = true) (d : Nat) :
    liveCount cx cy (t + d) = liveCount cx cy t := by
  induction d with
  | zero => rfl
  | succ d ih =>
    show liveCount cx cy (t + d + 1) = liveCount cx cy t
    rw [show liveCount cx cy (t + d + 1) = liveCount cx cy (t + d) +
      (if escapedBy cx cy (t + d) then 0 else 1) from rfl]
    rw [escapedBy_mono h d, ih]
    simp

theorem liveCount_full {cx cy : ℚ} {t : Nat}
    (h : escapedBy cx cy t = false) : liveCount cx cy t = t := by
  induction t with
  | zero => rfl
  | succ t ih =>
    have ht : escapedBy cx cy t = false := escapedBy_false_pred h
    unfold liveCount
    rw [ht, ih ht]
    simp

/-- The loop invariant of `member4`: after `t` unconditional passes, every
lane's orbit is the scalar orbit `z_t` of its own point (orbits are updated
unmasked), its not-escaped flag records whether no `z_k`, `k ≤ t`, has
escaped, and its countdown counter has been decremented exactly once per
pass during which the lane had not yet escaped. -/
theorem iterN_spec (M : Nat) (cx cy : Fin 4 → ℚ) (t : Nat) (i : Fin 4) :
    (iterN M cx cy t).x i = (orbit (cx i) (cy i) t).1 ∧
    (iterN M cx cy t).y i = (orbit (cx i) (cy i) t).2 ∧
    (iterN M cx cy t).notEsc i = !escapedBy (cx i) (cy i) t ∧
    (iterN M cx cy t).iters i = (M : Int) - liveCount (cx i) (cy i) t := by
  induction t with
  | zero =>
    refine ⟨rfl, rfl, ?_, by simp [iterN, initState, liveCount]⟩
    show decide (cx i * cx i + cy i * cy i < 4) = !escapedBy (cx i) (cy i) 0
    rw [show escapedBy (cx i) (cy i) 0 = escaped (cx i) (cy i) 0 from rfl]
    unfold escaped
    exact decide_lt_eq_not_decide_le _ _
  | succ t ih =>
    obtain ⟨hx, hy, hn, hi⟩ := ih
    refine ⟨?_, ?_, ?_, ?_⟩
    · show (step cx cy (iterN M cx cy t)).x i = (orbit (cx i) (cy i) (t + 1)).1
      simp only [step, orbit, hx, hy]
    · show (step cx cy (iterN M cx cy t)).y i = (orbit (cx i) (cy i) (t + 1)).2
      simp only [step, orbit, hx, hy]
    · show (step cx cy (iterN M cx cy t)).notEsc i =
        !escapedBy (cx i) (cy i) (t + 1)
      simp only [step, hx, hy, hn]
      rw [show escapedBy (cx i) (cy i) (t + 1) =
        (escapedBy (cx i) (cy i) t || escaped (cx i) (cy i) (t + 1)) from rfl]
      rw [Bool.not_or]
      congr 1
      unfold escaped
      rw [show (orbit (cx i) (cy i) (t + 1)) =
        ((orbit (cx i) (cy i) t).1 * (orbit (cx i) (cy i) t).1 -
            (orbit (cx i) (cy i) t).2 * (orbit (cx i) (cy i) t).2 + cx i,
          (orbit (cx i) (cy i) t).1 * (orbit (cx i) (cy i) t).2 +
            (orbit (cx i) (cy i) t).1 * (orbit (cx i) (cy i) t).2 + cy i)
        from rfl]
      exact decide_lt_eq_not_decide_le _ _
    · show (step cx cy (iterN M cx cy t)).iters i =
        (M : Int) - liveCount (cx i) (cy i) (t + 1)
      simp only [step, hi, hn]
      rw [show liveCount (cx i) (cy i) (t + 1) =
        liveCount (cx i) (cy i) t +
          (if escapedBy (cx i) (cy i) t then 0 else 1) from rfl]
      by_cases h : escapedBy (cx i) (cy i) t
      · simp [h]
      · simp only [h, Bool.not_false, if_true, if_false,
          Bool.false_eq_true, if_neg]
        push_cast
        ring

theorem laneDone_of_allDone {s : M4State} (h : allDone s = true) (i : Fin 4) :
    laneDone s i = true := by
  simp only [allDone, Bool.and_eq_true] at h
  obtain ⟨⟨⟨h0, h1⟩, h2⟩, h3⟩ := h
  fin_cases i <;> assumption

theorem laneDone_iterN_cap (M : Nat) (cx cy : Fin 4 → ℚ) (i : Fin 4) :
    laneDone (iterN M cx cy M) i = true := by
  obtain ⟨-, -, hn, hi⟩ := iterN_spec M cx cy M i
  unfold laneDone
  by_cases h : escapedBy (cx i) (cy i) M
  · simp [hn, h]
  · have : liveCount (cx i) (cy i) M = M :=
      liveCount_full (Bool.not_eq_true _ ▸ (by simpa using h))
    simp [hn, h, hi, this]

theorem allDone_iterN_cap (M : Nat) (cx cy : Fin 4 → ℚ) :
    allDone (iterN M cx cy M) = true := by
  simp [allDone, laneDone_iterN_cap]

theorem run_of_allDone {cx cy : Fin 4 → ℚ} {s : M4State}
    (h : allDone s = true) (n : Nat) : run cx cy n s = s := by
  cases n <;> simp [run, h]

/-- If a lane is already escaped at pass `t`, its counter is the same at
every later pass `u ≥ t` (directly from the invariant: the live count is
frozen once the lane escapes). -/
theorem iters_frozen_of_escaped {M : Nat} {cx cy : Fin 4 → ℚ} {t : Nat}
    {i : Fin 4} (h : escapedBy (cx i) (cy i) t = true) {u : Nat}
    (htu : t ≤ u) :
    (iterN M cx cy u).iters i = (iterN M cx cy t).iters i := by
  obtain ⟨-, -, -, hu⟩ := iterN_spec M cx cy u i
  obtain ⟨-, -, -, ht⟩ := iterN_spec M cx cy t i
  obtain ⟨d, rfl⟩ := Nat.exists_eq_add_of_le htu
  rw [hu, ht, liveCount_freeze h d]

/-- After the loop exits (with any remaining fuel), each lane's counter is
the one it has after `M` unconditional passes: an early joint exit can only
happen when every lane has escaped, and escaped lanes' counters are
frozen. -/
theorem run_iterN_iters (M : Nat) (cx cy : Fin 4 → ℚ) :
    ∀ n t, n + t = M → ∀ i : Fin 4,
      (run cx cy n (iterN M cx cy t)).iters i = (iterN M cx cy M).iters i := by
  intro n
  induction n with
  | zero =>
    intro t h i
    have : t = M := by omega
    subst this
    rfl
  | succ n ih =>
    intro t h i
    by_cases hd : allDone (iterN M cx cy t) = true
    · rw [run_of_allDone hd]
      have hi := laneDone_of_allDone hd i
      unfold laneDone at hi
      obtain ⟨-, -, hn, hit⟩ := iterN_spec M cx cy t i
      by_cases he : escapedBy (cx i) (cy i) t
      · exact (iters_frozen_of_escaped he (by omega)).symm
      · exfalso
        have hnt : (iterN M cx cy t).notEsc i = true := by simp [hn, he]
        rw [if_pos hnt] at hi
        have h0 : (iterN M cx cy t).iters i = 0 := by simpa using hi
        rw [hit] at h0
        have hle : liveCount (cx i) (cy i) t ≤ t := liveCount_le _ _ _
        omega
    · show (if allDone (iterN M cx cy t) then iterN M cx cy t
        else run cx cy n (step cx cy (iterN M cx cy t))).iters i =
        (iterN M cx cy M).iters i
      rw [if_neg hd]
      have hstep : step cx cy (iterN M cx cy t) = iterN M cx cy (t + 1) := rfl
      rw [hstep]
      exact ih (t + 1) (by omega) i

/-- Characterization of `member4P`: each lane's returned count is the
number of loop passes during which that lane had not yet escaped, over `M`
passes. -/
theorem member4P_eq_liveCount (M : Nat) (cx cy : Fin 4 → ℚ) (i : Fin 4) :
    member4P M cx cy i = (liveCount (cx i) (cy i) M : Int) := by
  unfold member4P
  have h0 : initState M cx cy = iterN M cx cy 0 := rfl
  rw [h0, run_iterN_iters M cx cy M 0 (by omega) i]
  obtain ⟨-, -, -, hi⟩ := iterN_spec M cx cy M i
  rw [hi]
  ring

theorem scalarLoop_of_escaped {cx cy : ℚ} {t : Nat}
    (h : escaped cx cy t = true) (f : Nat) :
    scalarLoop cx cy (orbit cx cy t).1 (orbit cx cy t).2 f = 0 := by
  cases f with
  | zero => rfl
  | succ f =>
    unfold scalarLoop
    rw [if_neg (not_lt.mpr (by simpa [escaped] using h))]

/-- Bridge between the per-pass live count and the scalar loop: as long as
the point has not yet escaped, running the scalar loop from the current
orbit point for `f` more steps counts exactly the passes the lane stays
live. -/
theorem liveCount_bridge (cx cy : ℚ) :
    ∀ f t, escapedBy cx cy t = false →
      liveCount cx cy (t + f) = liveCount cx cy t +
        scalarLoop cx cy (orbit cx cy t).1 (orbit cx cy t).2 f := by
  intro f
  induction f with
  | zero => intro t _; rfl
  | succ f ih =>
    intro t h
    have hesc : escaped cx cy t = false := escapedBy_false_elim h
    have hlt : (orbit cx cy t).1 * (orbit cx cy t).1 +
        (orbit cx cy t).2 * (orbit cx cy t).2 < 4 := by
      have := hesc
      unfold escaped at this
      simpa using this
    rw [show scalarLoop cx cy (orbit cx cy t).1 (orbit cx cy t).2 (f + 1) =
      if (orbit cx cy t).1 * (orbit cx cy t).1 +
          (orbit cx cy t).2 * (orbit cx cy t).2 < 4 then
        scalarLoop cx cy
          ((orbit cx cy t).1 * (orbit cx cy t).1 -
            (orbit cx cy t).2 * (orbit cx cy t).2 + cx)
          ((orbit cx cy t).1 * (orbit cx cy t).2 +
            (orbit cx cy t).1 * (orbit cx cy t).2 + cy) f + 1
      else 0 from rfl]
    rw [if_pos hlt]
    have horb : (orbit cx cy (t + 1)).1 =
        (orbit cx cy t).1 * (orbit cx cy t).1 -
          (orbit cx cy t).2 * (orbit cx cy t).2 + cx ∧
        (orbit cx cy (t + 1)).2 =
        (orbit cx cy t).1 * (orbit cx cy t).2 +
          (orbit cx cy t).1 * (orbit cx cy t).2 + cy := ⟨rfl, rfl⟩
    rw [← horb.1, ← horb.2]
    have hl1 : liveCount cx cy (t + 1) = liveCount cx cy t + 1 := by
      rw [show liveCount cx cy (t + 1) = liveCount cx cy t +
        (if escapedBy cx cy t then 0 else 1) from rfl, h]
      simp
    by_cases h1 : escapedBy cx cy (t + 1) = true
    · have hesc1 : escaped cx cy (t + 1) = true := by
        have : escapedBy cx cy (t + 1) = (escapedBy cx cy t ||
          escaped cx cy (t + 1)) := rfl
        rw [this, h, Bool.false_or] at h1
        exact h1
      rw [scalarLoop_of_escaped hesc1 f]
      have : t + (f + 1) = (t + 1) + f := by omega
      rw [this, liveCount_freeze h1 f, hl1]
    · have h1f : escapedBy cx cy (t + 1) = false := by simpa using h1
      have : t + (f + 1) = (t + 1) + f := by omega
      rw [this, ih (t + 1) h1f, hl1]
      omega

theorem liveCount_eq_scalarCount (M : Nat) (cx cy : ℚ) :
    liveCount cx cy M = scalarCount M cx cy := by
  by_cases h0 : escapedBy cx cy 0 = true
  · have h1 : liveCount cx cy M = liveCount cx cy 0 := by
      have : M = 0 + M := by omega
      rw [this, liveCount_freeze h0 M]
    rw [h1]
    have h2 : scalarLoop cx cy (orbit cx cy 0).1 (orbit cx cy 0).2 M = 0 :=
      scalarLoop_of_escaped h0 M
    unfold scalarCount
    rw [show scalarLoop cx cy cx cy M =
      scalarLoop cx cy (orbit cx cy 0).1 (orbit cx cy 0).2 M from rfl, h2]
    rfl
  · have h0f : escapedBy cx cy 0 = false := by simpa using h0
    have := liveCount_bridge cx cy M 0 h0f
    simpa [scalarCount, liveCount] using this

/-- The central refinement lemma: the batched evaluator with cap `M`
returns, in each lane, exactly the scalar escape-time count of that lane's
own point. -/
theorem member4P_eq_scalarCount (M : Nat) (cx cy : Fin 4 → ℚ) (i : Fin 4) :
    member4P M cx cy i = (scalarCount M (cx i) (cy i) : Int) := by
  rw [member4P_eq_liveCount, liveCount_eq_scalarCount]

/-- The joint loop reaches the all-done exit condition within `M` passes:
running with any fuel split `n + t = M` from the state after `t` passes
lands in a state where every lane is done. -/
theorem allDone_run (M : Nat) (cx cy : Fin 4 → ℚ) :
    ∀ n t, n + t = M →
      allDone (run cx cy n (iterN M cx cy t)) = true := by
  intro n
  induction n with
  | zero =>
    intro t h
    have hM : t = M := by omega
    rw [show run cx cy 0 (iterN M cx cy t) = iterN M cx cy t from rfl, hM]
    exact allDone_iterN_cap M cx cy
  | succ n ih =>
    intro t h
    by_cases hd : allDone (iterN M cx cy t) = true
    · rw [run_of_allDone hd]
      exact hd
    · show allDone (if allDone (iterN M cx cy t) then iterN M cx cy t
        else run cx cy n (step cx cy (iterN M cx cy t))) = true
      rw [if_neg hd]
      have hstep : step cx cy (iterN M cx cy t) = iterN M cx cy (t + 1) := rfl
      rw [hstep]
      exact ih (t + 1) (by omega)

/-- Extra fuel after the exit condition holds does not change the loop's
result: the fueled `run` models the unbounded `while` faithfully. -/
theorem run_fuel_irrelevant {cx cy : Fin 4 → ℚ} :
    ∀ n (s : M4State), allDone (run cx cy n s) = true →
      ∀ m, run cx cy (n + m) s = run cx cy n s := by
  intro n
  induction n with
  | zero =>
    intro s h m
    simpa using run_of_allDone (by simpa [run] using h) m
  | succ n ih =>
    intro s h m
    by_cases hd : allDone s = true
    · rw [run_of_allDone hd, run_of_allDone hd]
    · have hu : run cx cy (n + 1) s = run cx cy n (step cx cy s) := by
        show (if allDone s then s else run cx cy n (step cx cy s)) =
          run cx cy n (step cx cy s)
        rw [if_neg hd]
      rw [hu] at h ⊢
      have hu2 : run cx cy (n + 1 + m) s =
          run cx cy (n + m) (step cx cy s) := by
        rw [show n + 1 + m = (n + m) + 1 from by omega]
        show (if allDone s then s else run cx cy (n + m) (step cx cy s)) =
          run cx cy (n + m) (step cx cy s)
        rw [if_neg hd]
      rw [hu2]
      exact ih (step cx cy s) h m

/-- Every state `run` can reach from the initial state is one of the first
`M` unconditional pass states. -/
theorem run_reaches_iterN (M : Nat) (cx cy : Fin 4 → ℚ) :
    ∀ n t, t ≤ M → ∃ u, u ≤ M ∧
      run cx cy n (iterN M cx cy t) = iterN M cx cy u := by
  intro n
  induction n with
  | zero => intro t h; exact ⟨t, h, rfl⟩
  | succ n ih =>
    intro t h
    by_cases hd : allDone (iterN M cx cy t) = true
    · exact ⟨t, h, run_of_allDone hd (n + 1)⟩
    · have ht : t ≠ M := by
        intro hc
        rw [hc] at hd
        exact hd (allDone_iterN_cap M cx cy)
      have hstep : step cx cy (iterN M cx cy t) = iterN M cx cy (t + 1) := rfl
      have hu : run cx cy (n + 1) (iterN M cx cy t) =
          run cx cy n (iterN M cx cy (t + 1)) := by
        show (if allDone (iterN M cx cy t) then iterN M cx cy t
          else run cx cy n (step cx cy (iterN M cx cy t))) =
          run cx cy n (iterN M cx cy (t + 1))
        rw [if_neg hd, hstep]
      rw [hu]
      exact ih (t + 1) (by omega)

theorem scalarCount_of_escaped_start (M : Nat) {cx cy : ℚ}
    (h : 4 ≤ cx * cx + cy * cy) : scalarCount M cx cy = 0 := by
  have he : escaped cx cy 0 = true := by
    unfold escaped orbit
    exact decide_eq_true h
  have := scalarLoop_of_escaped he M
  simpa [scalarCount, orbit] using this

theorem scalarLoop_zero_point : ∀ f : Nat, scalarLoop 0 0 0 0 f = f := by
  intro f
  induction f with
  | zero => rfl
  | succ f ih =>
    show (if (0 : ℚ) * 0 + 0 * 0 < 4 then
      scalarLoop 0 0 (0 * 0 - 0 * 0 + 0) (0 * 0 + 0 * 0 + 0) f + 1
      else 0) = f + 1
    rw [if_pos (by norm_num)]
    have h1 : ((0 : ℚ) * 0 - 0 * 0 + 0) = 0 := by norm_num
    have h2 : ((0 : ℚ) * 0 + 0 * 0 + 0) = 0 := by norm_num
    rw [h1, h2, ih]

theorem scalarLoop_negone_point :
    ∀ f : Nat, scalarLoop (-1) 0 (-1) 0 f = f ∧ scalarLoop (-1) 0 0 0 f = f := by
  intro f
  induction f with
  | zero => exact ⟨rfl, rfl⟩
  | succ f ih =>
    constructor
    · show (if (-1 : ℚ) * (-1) + 0 * 0 < 4 then
        scalarLoop (-1) 0 ((-1) * (-1) - 0 * 0 + (-1)) ((-1) * 0 + (-1) * 0 + 0) f + 1
        else 0) = f + 1
      rw [if_pos (by norm_num)]
      have h1 : ((-1 : ℚ) * (-1) - 0 * 0 + (-1)) = 0 := by norm_num
      have h2 : ((-1 : ℚ) * 0 + (-1) * 0 + 0) = 0 := by norm_num
      rw [h1, h2, ih.2]
    · show (if (0 : ℚ) * 0 + 0 * 0 < 4 then
        scalarLoop (-1) 0 (0 * 0 - 0 * 0 + (-1)) (0 * 0 + 0 * 0 + 0) f + 1
        else 0) = f + 1
      rw [if_pos (by norm_num)]
      have h1 : ((0 : ℚ) * 0 - 0 * 0 + (-1)) = -1 := by norm_num
      have h2 : ((0 : ℚ) * 0 + 0 * 0 + 0) = 0 := by norm_num
      rw [h1, h2, ih.1]

theorem scalarCount_zero_point (M : Nat) : scalarCount M 0 0 = M :=
  scalarLoop_zero_point M

theorem scalarCount_negone_point (M : Nat) : scalarCount M (-1) 0 = M :=
  (scalarLoop_negone_point M).1

/-! ### The zoom transition of `mandelbrot` (lines 316-325)

Per-frame view-window state: the four-lane x delta `delta_x4`, the
four-lane x offset `x_offset4`, the scalar `delta_y` and `y_offset`, and
the zoom `depth`.  After each rendered frame, if `depth < MAX_DEPTH`, the
depth is incremented and every delta and offset is multiplied by
`zoom_multiplier = 1 / ZOOM_FACTOR`. -/

structure ZoomState where
  delta_x4 : Fin 4 → ℚ
  x_offset4 : Fin 4 → ℚ
  delta_y : ℚ
  y_offset : ℚ
  depth : Nat

/-- Reciprocal of the zoom factor (`zoom_multiplier` in the source). -/
def zoom_multiplier : ℚ := 1 / ZOOM_FACTOR

/-- The per-frame zoom transition (lines 316-325). -/
def zoomStep (s : ZoomState) : ZoomState :=
  if s.depth < MAX_DEPTH then
    { delta_x4 := fun i => s.delta_x4 i * zoom_multiplier
      x_offset4 := fun i => s.x_offset4 i * zoom_multiplier
      delta_y := s.delta_y * zoom_multiplier
      y_offset := s.y_offset * zoom_multiplier
      depth := s.depth + 1 }
  else s

/-- The per-pixel x delta before lane widening (`delta_x`, line 223). -/
def delta_x : ℚ := (1 / (X_RES : ℚ)) * 4

/-- The initial offset constant (`center = -0.5f * 4.0f`, line 228). -/
def center : ℚ := -(1 / 2) * 4

/-- The initial view-window state of `mandelbrot` (lines 222-243). -/
def initZoom : ZoomState where
  delta_x4 := fun _ => delta_x * 4
  x_offset4 := fun i => center + (i.val : ℚ) * delta_x
  delta_y := (1 / (Y_RES : ℚ)) * 4
  y_offset := center
  depth := 0

theorem zoomStep_depth (s : ZoomState) :
    (zoomStep s).depth = if s.depth < MAX_DEPTH then s.depth + 1 else s.depth := by
  unfold zoomStep
  split <;> rfl

theorem zoomStep_depth_iterate (n : Nat) :
    (zoomStep^[n] initZoom).depth = min n MAX_DEPTH := by
  induction n with
  | zero => rfl
  | succ n ih =>
    rw [Function.iterate_succ_apply', zoomStep_depth, ih]
    split <;> omega

theorem zoomStep_fixed_of_max {s : ZoomState}
    (h : ¬s.depth < MAX_DEPTH) : zoomStep s = s := by
  unfold zoomStep
  rw [if_neg h]

/-! ### Claim theorems -/

/-- Claim C1: for every batch of 4 complex points, the per-lane iteration
counts returned by the batched evaluator `member4` equal, lane by lane, the
counts of the scalar escape-time recurrence (`x ← x² − y² + cx`,
`y ← 2xy + cy` from `z₀ = c`, escape when `x² + y² ≥ 4`, capped at
`MAX_ITS`) run independently on each point, each scalar loop stopping
exactly at its own escape. -/
theorem member4_refines_scalar (cx cy : Fin 4 → ℚ) (i : Fin 4) :
    member4 cx cy i = (scalarCount MAX_ITS (cx i) (cy i) : Int) :=
  member4P_eq_scalarCount MAX_ITS cx cy i

/-- Claim C2: for every iteration count `k`, the renderer's palette-index
pipeline computes index `0` when `k = MAX_ITS` and `(k mod 64) + 1` when
`k ≠ MAX_ITS`. -/
theorem palette_index_mapping (k : Nat) :
    colorIndex k = if k = MAX_ITS then 0 else k % 64 + 1 :=
  colorIndex_eq k

/-- Claim C3, counterexample: the iteration count `63 < MAX_ITS` produces
palette index `64`, which is outside the claimed range `[0, 63]`. -/
theorem palette_index_63_counterexample :
    63 < MAX_ITS ∧ colorIndex 63 = 64 ∧ ¬colorIndex 63 ≤ 63 := by decide

/-- Claim C3, amended: the palette index computed from any iteration count
lies in `[0, 64]`, and for every count `k ≠ MAX_ITS` it lies in `[1, 64]`
(not `[1, 63]` as claimed: `k` with `k mod 64 = 63` yields index 64). -/
theorem palette_index_in_range (k : Nat) :
    colorIndex k ≤ 64 ∧ (k ≠ MAX_ITS → 1 ≤ colorIndex k ∧ colorIndex k ≤ 64) :=
  ⟨colorIndex_le_64 k, fun h => ⟨colorIndex_pos k h, colorIndex_le_64 k⟩⟩

/-- Witness for the amended C3 at `k = 5`. -/
theorem palette_index_in_range_witness :
    colorIndex 5 ≤ 64 ∧ (1 ≤ colorIndex 5 ∧ colorIndex 5 ≤ 64) :=
  ⟨(palette_index_in_range 5).1, (palette_index_in_range 5).2 (by decide)⟩

/-- Claim C4, counterexample: at iteration count `64 < MAX_ITS`, the RGB
color written (palette entry `(64 mod 64) + 1 = 1`) differs from the
40-entry authored ramp at position `64 mod 40 = 24`: the mod-64 bitmask
does not substitute for mod-40. -/
theorem palette_mod64_not_mod40 :
    64 < MAX_ITS ∧ palColor 64 ≠ rampTriple (64 % 40) := by decide

/-- Claim C4, amended: for every iteration count `k ≠ MAX_ITS`, the RGB
color written equals the authored ramp at position `(k mod 64) mod 40`
(the color cycle has period 64, not 40); this coincides with the ramp at
`k mod 40` only for `k < 64`. -/
theorem palColor_cycles_mod64 (k : Nat) (h : k ≠ MAX_ITS) :
    palColor k = rampTriple (k % 64 % 40) ∧
    (k < 64 → palColor k = rampTriple (k % 40)) := by
  have hidx : colorIndex k = k % 64 + 1 := by
    rw [colorIndex_eq, if_neg h]
  have hj : k % 64 < 64 := Nat.mod_lt _ (by norm_num)
  have h1 : palColor k = rampTriple (k % 64 % 40) := by
    unfold palColor
    rw [hidx]
    exact palTriple_succ_eq_ramp (k % 64) hj
  refine ⟨h1, fun hk => ?_⟩
  rw [h1, Nat.mod_eq_of_lt hk]

/-- Witness for the amended C4 at `k = 7`. -/
theorem palColor_cycles_mod64_witness :
    palColor 7 = rampTriple (7 % 64 % 40) ∧ palColor 7 = rampTriple (7 % 40) :=
  ⟨(palColor_cycles_mod64 7 (by decide)).1,
   (palColor_cycles_mod64 7 (by decide)).2 (by decide)⟩

/-- Claim C5: the stored palette holds 65 RGB triples (one more than the
documented 64), and every reachable color index — `0` or `(k mod 64) + 1`,
hence at most 64 — reads bytes `i*3`, `i*3+1`, `i*3+2` within the
array. -/
theorem pal_access_in_bounds :
    pal.length = 65 * 3 ∧
    ∀ k : Nat, colorIndex k ≤ 64 ∧ colorIndex k * 3 + 2 < pal.length := by
  refine ⟨pal_length, fun k => ⟨colorIndex_le_64 k, ?_⟩⟩
  have h := colorIndex_le_64 k
  rw [pal_length]
  omega

/-- Claim C6: every per-lane count returned by the evaluator lies in
`[0, MAX_ITS]`, and the internal countdown counter of each lane stays
nonnegative at every state the joint loop reaches, regardless of how long
other lanes keep the loop running. -/
theorem member4_counts_in_range (cx cy : Fin 4 → ℚ) (i : Fin 4) :
    0 ≤ member4 cx cy i ∧ member4 cx cy i ≤ (MAX_ITS : Int) ∧
    ∀ n : Nat, 0 ≤ (run cx cy n (initState MAX_ITS cx cy)).iters i := by
  have hm : member4 cx cy i = (liveCount (cx i) (cy i) MAX_ITS : Int) :=
    member4P_eq_liveCount MAX_ITS cx cy i
  have hle : liveCount (cx i) (cy i) MAX_ITS ≤ MAX_ITS := liveCount_le _ _ _
  refine ⟨by rw [hm]; positivity, by rw [hm]; exact_mod_cast hle, fun n => ?_⟩
  have h0 : initState MAX_ITS cx cy = iterN MAX_ITS cx cy 0 := rfl
  rw [h0]
  obtain ⟨u, hu, he⟩ := run_reaches_iterN MAX_ITS cx cy n 0 (by omega)
  rw [he]
  obtain ⟨-, -, -, hi⟩ := iterN_spec MAX_ITS cx cy u i
  rw [hi]
  have : liveCount (cx i) (cy i) u ≤ u := liveCount_le _ _ _
  have : (liveCount (cx i) (cy i) u : Int) ≤ (MAX_ITS : Int) := by
    exact_mod_cast le_trans this hu
  omega

/-- Claim C7: the joint loop of `member4` terminates for every input
batch: within `MAX_ITS` passes the exit condition (every lane escaped or
out of budget) holds, and granting the loop any additional fuel does not
change its result. -/
theorem member4_loop_terminates (cx cy : Fin 4 → ℚ) :
    allDone (run cx cy MAX_ITS (initState MAX_ITS cx cy)) = true ∧
    ∀ m : Nat, run cx cy (MAX_ITS + m) (initState MAX_ITS cx cy) =
      run cx cy MAX_ITS (initState MAX_ITS cx cy) := by
  have h0 : initState MAX_ITS cx cy = iterN MAX_ITS cx cy 0 := rfl
  rw [h0]
  have h := allDone_run MAX_ITS cx cy MAX_ITS 0 (by omega)
  exact ⟨h, fun m => run_fuel_irrelevant MAX_ITS _ h m⟩

/-- Claim C8: one `ZOOMING` transition divides every per-axis delta and
offset by `ZOOM_FACTOR` (exactly, in the rational model of the float
arithmetic) and increments the depth; after `MAX_DEPTH` transitions from
the initial window the state never changes again. -/
theorem zoom_transition_spec :
    (∀ s : ZoomState, s.depth < MAX_DEPTH →
      (zoomStep s).delta_y = s.delta_y / ZOOM_FACTOR ∧
      (zoomStep s).y_offset = s.y_offset / ZOOM_FACTOR ∧
      (∀ i, (zoomStep s).delta_x4 i = s.delta_x4 i / ZOOM_FACTOR) ∧
      (∀ i, (zoomStep s).x_offset4 i = s.x_offset4 i / ZOOM_FACTOR) ∧
      (zoomStep s).depth = s.depth + 1) ∧
    ∀ m : Nat, zoomStep^[m] (zoomStep^[MAX_DEPTH] initZoom) =
      zoomStep^[MAX_DEPTH] initZoom := by
  constructor
  · intro s h
    unfold zoomStep
    rw [if_pos h]
    refine ⟨?_, ?_, fun i => ?_, fun i => ?_, rfl⟩ <;>
      simp [zoom_multiplier, one_div, div_eq_mul_inv]
  · intro m
    have hd : (zoomStep^[MAX_DEPTH] initZoom).depth = MAX_DEPTH := by
      rw [zoomStep_depth_iterate]
      simp
    have hfix : zoomStep (zoomStep^[MAX_DEPTH] initZoom) =
        zoomStep^[MAX_DEPTH] initZoom :=
      zoomStep_fixed_of_max (by omega)
    exact Function.iterate_fixed hfix m

/-- Witness for C8: the first transition from the initial window divides
`delta_y` by the zoom factor and increments the depth. -/
theorem zoom_transition_spec_witness :
    (zoomStep initZoom).delta_y = initZoom.delta_y / ZOOM_FACTOR ∧
    (zoomStep initZoom).depth = initZoom.depth + 1 :=
  ⟨(zoom_transition_spec.1 initZoom (by decide)).1,
   (zoom_transition_spec.1 initZoom (by decide)).2.2.2.2⟩

/-- Claim C9: any lane whose initial point satisfies `cx² + cy² ≥ 4`
returns iteration count 0 (the escape test precedes any orbit update); in
particular this holds for every lane of a batch whose points all start
escaped. -/
theorem immediate_escape_zero (cx cy : Fin 4 → ℚ)
    (h : ∀ j, 4 ≤ cx j * cx j + cy j * cy j) (i : Fin 4) :
    member4 cx cy i = 0 := by
  rw [member4, member4P_eq_scalarCount,
    scalarCount_of_escaped_start MAX_ITS (h i)]
  rfl

/-- Witness for C9: the all-escaped batch `c = 3` returns count 0. -/
theorem immediate_escape_zero_witness :
    (4 : ℚ) ≤ 3 * 3 + 0 * 0 ∧
    member4 (fun _ => 3) (fun _ => 0) 0 = 0 :=
  ⟨by norm_num,
   immediate_escape_zero (fun _ => 3) (fun _ => 0) (fun _ => by norm_num) 0⟩

/-- Claim C10: a lane whose input point is `0 + 0i` returns the cap `M`
(the orbit stays at the origin), and a lane whose input point is `-1 + 0i`
returns the cap `M` (the orbit cycles between `-1` and `0`), for any cap
`M` (the source instantiates `M = MAX_ITS`). -/
theorem special_points_return_cap (M : Nat) (cx cy : Fin 4 → ℚ) (i : Fin 4) :
    (cx i = 0 → cy i = 0 → member4P M cx cy i = (M : Int)) ∧
    (cx i = -1 → cy i = 0 → member4P M cx cy i = (M : Int)) := by
  constructor <;> intro h1 h2 <;>
    rw [member4P_eq_scalarCount, h1, h2]
  · rw [scalarCount_zero_point]
  · rw [scalarCount_negone_point]

/-- Witness for C10 with cap 2: both special points return 2. -/
theorem special_points_return_cap_witness :
    member4P 2 (fun _ => (0 : ℚ)) (fun _ => 0) 0 = ((2 : Nat) : Int) ∧
    member4P 2 (fun _ => (-1 : ℚ)) (fun _ => 0) 0 = ((2 : Nat) : Int) :=
  ⟨(special_points_return_cap 2 (fun _ => 0) (fun _ => 0) 0).1 rfl rfl,
   (special_points_return_cap 2 (fun _ => (-1 : ℚ)) (fun _ => 0) 0).2 rfl rfl⟩

end Mandelbrot
